import Mathlib

/-
A Lean 4 model of the C99-to-C89 compound-literal conversion tool
(src/convert.c).  C functions are embedded as executable Lean definitions:
C `int` arithmetic is modelled on `Int` (signed overflow is undefined
behaviour in C and is modelled as unbounded arithmetic), fatal `exit(1)`
calls and failed `assert`s become `Except` errors, and the libclang
token/AST provider is modelled by explicit token-spelling lists and
expression trees.  Token extents follow the libclang convention that the
source itself relies on (`fill_enum_value` asserts `n_tokens == 4` for a
three-token binary expression): `clang_tokenize` returns the extent's
tokens plus one trailing token.  Allocation-failure (`realloc` returning
NULL) paths are not modelled.
-/

namespace Convert

/-- C `atoi`, digit-accumulation part: consume leading decimal digits. -/
def atoiCore : List Char → Int → Int
  | [], acc => acc
  | c :: r, acc =>
    if c.isDigit then atoiCore r (acc * 10 + ((c.toNat - 48 : Nat) : Int)) else acc

/-- C `isspace` for the characters `atoi` skips. -/
def isSpaceC (c : Char) : Bool :=
  c = ' ' || c = '\t' || c = '\n' || c = '\r' || Char.toNat c = 11 || Char.toNat c = 12

/-- C `atoi`: skip whitespace, optional sign, then leading decimal digits. -/
def atoi (s : String) : Int :=
  match s.data.dropWhile isSpaceC with
  | '-' :: r => - atoiCore r 0
  | '+' :: r => atoiCore r 0
  | l => atoiCore l 0

/-- `concat_name` from convert.c: join the token spellings at indices
`a` to `b` (inclusive) with single spaces. -/
def concat_name (tokens : List String) (a b : Nat) : String :=
  String.intercalate " " ((tokens.drop a).take (b + 1 - a))

/-- The fatal error paths of convert.c: failed `assert`s abort, the other
constructors are the `fprintf(stderr, ...); exit(1)` diagnostics, each
carrying the symbol the diagnostic names. -/
inductive EvalErr where
  | assertFail : EvalErr
  | unknownArith (expr : String) : EvalErr
  | unknownEnumValue (name : String) : EvalErr
  | tokenNotFound (tok : String) : EvalErr
  deriving DecidableEq, Repr

/-- `arithmetic_expression` from convert.c.  `assert(expr[1] == 0)` restricts
the operator to single-character spellings (a longer spelling such as a shift
operator fails the assertion before the switch is reached); the switch applies
the operator, and an unrecognized single character reaches the fatal
unknown-arithmetic-expression exit.  `/` and `%` are C's truncating division
and remainder (Int.tdiv, Int.tmod), applied with no guard on the divisor;
`^`, `|`, `&` are two's-complement bitwise operations, which Int.xor, Int.lor
and Int.land extend to unbounded integers. -/
def arithmetic_expression (val1 : Int) (expr : String) (val2 : Int) :
    Except EvalErr Int :=
  match expr.data with
  | [c] =>
    if c = '^' then .ok (Int.xor val1 val2)
    else if c = '|' then .ok (Int.lor val1 val2)
    else if c = '&' then .ok (Int.land val1 val2)
    else if c = '+' then .ok (val1 + val2)
    else if c = '-' then .ok (val1 - val2)
    else if c = '*' then .ok (val1 * val2)
    else if c = '/' then .ok (Int.tdiv val1 val2)
    else if c = '%' then .ok (Int.tmod val1 val2)
    else .error (.unknownArith expr)
  | _ => .error .assertFail

/-- `EnumMember` from convert.c (the cursor field plays no role in the
modelled behaviour of members and is omitted). -/
structure EnumMember where
  name : String
  value : Int
  deriving DecidableEq, Repr

/-- `EnumDeclaration` from convert.c; the opaque `CXCursor` node identity,
compared by `memcmp` in the source, is modelled as a `Nat` handle. -/
structure EnumDeclaration where
  name : String
  cursor : Nat
  entries : List EnumMember
  deriving DecidableEq, Repr

/-- Inner loop of `find_enum_value`: scan one enum's members in order. -/
def find_in_entries : List EnumMember → String → Option Int
  | [], _ => none
  | m :: ms, str => if m.name = str then some m.value else find_in_entries ms str

/-- `find_enum_value` from convert.c: linear scan over all registered enums
in registration order, and over each enum's members in order; the first
member whose name matches is returned, and exhausting the registries is the
fatal unknown-enum-value exit naming the constant. -/
def find_enum_value : List EnumDeclaration → String → Except EvalErr Int
  | [], str => .error (.unknownEnumValue str)
  | e :: es, str =>
    match find_in_entries e.entries str with
    | some v => .ok v
    | none => find_enum_value es str

/-- The AST shapes `fill_enum_value` dispatches on: an integer-literal
cursor (with its token spelling), a decl-ref cursor (with the referenced
name), a binary-operator cursor (with the spelling of the second token of
its extent, i.e. the operator when the left operand is a single token), and
any other cursor kind, which contributes no value and whose children are not
visited.  `otherNode` records the extent's token count so the source's
token-count assertions can be stated. -/
inductive CExpr where
  | intLit (spelling : String) : CExpr
  | declRef (name : String) : CExpr
  | binOp (op : String) (lhs rhs : CExpr) : CExpr
  | otherNode (ntokens : Nat) : CExpr
  deriving DecidableEq, Repr

/-- Number of tokens in a node's extent (before libclang's extra trailing
token). -/
def tokenCount : CExpr → Nat
  | .intLit _ => 1
  | .declRef _ => 1
  | .binOp _ l r => tokenCount l + 1 + tokenCount r
  | .otherNode n => n

/-- `fill_enum_value` from convert.c, as the list of values one visit pushes
into the caller's cache (the C `cache[1+cache[0]++] = v` pushes).  For a
binary operator the source first asserts `n_tokens == 4` (the extent's
tokens plus libclang's extra trailing one), then visits the two children and
asserts exactly two values were produced, then applies
`arithmetic_expression` to them.  Any other cursor kind pushes nothing and
its children are not visited (`CXChildVisit_Continue` after `break`). -/
def fill_enum_value (reg : List EnumDeclaration) : CExpr → Except EvalErr (List Int)
  | .intLit s => .ok [atoi s]
  | .declRef name =>
    match find_enum_value reg name with
    | .ok v => .ok [v]
    | .error e => .error e
  | .binOp op l r =>
    if tokenCount (.binOp op l r) + 1 = 4 then
      match fill_enum_value reg l with
      | .error e => .error e
      | .ok vs =>
        match fill_enum_value reg r with
        | .error e => .error e
        | .ok vs2 =>
          match vs ++ vs2 with
          | [a, b] =>
            match arithmetic_expression a op b with
            | .ok v => .ok [v]
            | .error e => .error e
          | _ => .error .assertFail
    else .error .assertFail
  | .otherNode _ => .ok []

/-- `clang_visitChildren(cursor, fill_enum_value, cache)`: the children are
visited in order, each appending its values to the shared cache. -/
def evalChildren (reg : List EnumDeclaration) : List CExpr → Except EvalErr (List Int)
  | [] => .ok []
  | e :: es =>
    match fill_enum_value reg e with
    | .error err => .error err
    | .ok vs =>
      match evalChildren reg es with
      | .error err => .error err
      | .ok vs2 => .ok (vs ++ vs2)

/-- One `CXCursor_EnumConstantDecl` as `fill_enum_members` consumes it: the
enumerator's name and the child nodes of the cursor (at most one initializer
expression in well-formed C). -/
structure EnumConstDecl where
  name : String
  children : List CExpr
  deriving DecidableEq, Repr

/-- `fill_enum_members` from convert.c, the recursion carrying the members
appended so far (the C code appends into `decl->entries` and reads
`decl->entries[n-1].value`; `acc` is that growing array).  Lookups made while
evaluating an initializer see the registry with the partially built enum
appended at the end, because `register_enum` increments `n_enums` before
visiting the children (so earlier members of the same enum are visible).
After visiting an enumerator's children the source asserts `cache[0] <= 1`;
one value means an explicit initializer, zero values means the default:
0 for the first member, previous value + 1 otherwise. -/
def fill_enum_members_go (reg : List EnumDeclaration) (name : String)
    (cursor : Nat) (acc : List EnumMember) :
    List EnumConstDecl → Except EvalErr (List EnumMember)
  | [] => .ok acc
  | d :: ds =>
    match evalChildren (reg ++ [⟨name, cursor, acc⟩]) d.children with
    | .error e => .error e
    | .ok vals =>
      if 2 ≤ vals.length then .error .assertFail
      else
        let v : Int :=
          match vals with
          | [v0] => v0
          | _ =>
            match acc.getLast? with
            | none => 0
            | some m => m.value + 1
        fill_enum_members_go reg name cursor (acc ++ [⟨d.name, v⟩]) ds

/-- `clang_visitChildren(cursor, fill_enum_members, decl)` on a fresh enum
declaration. -/
def fill_enum_members (reg : List EnumDeclaration) (name : String)
    (cursor : Nat) (ds : List EnumConstDecl) : Except EvalErr (List EnumMember) :=
  fill_enum_members_go reg name cursor [] ds

/-- The de-duplication scan of `register_enum`: return the index of the first
registered enum whose name matches and whose cursor (node identity, compared
with `memcmp` in the source) differs. -/
def find_existing_enum : List EnumDeclaration → String → Nat → Nat → Option Nat
  | [], _, _, _ => none
  | d :: ds, str, cursor, i =>
    if d.name = str ∧ d.cursor ≠ cursor then some i
    else find_existing_enum ds str cursor (i + 1)

/-- `register_enum` from convert.c.  If an entry with the same name but a
different node identity exists, the registry is left untouched and the
existing entry is linked (the returned index models the `decl_ptr->enum_decl`
pointer).  Otherwise a fresh entry is appended and filled. -/
def register_enum (reg : List EnumDeclaration) (str : String) (cursor : Nat)
    (children : List EnumConstDecl) : Except EvalErr (List EnumDeclaration × Nat) :=
  match find_existing_enum reg str cursor 0 with
  | some i => .ok (reg, i)
  | none =>
    match fill_enum_members reg str cursor children with
    | .error e => .error e
    | .ok ms => .ok (reg ++ [⟨str, cursor, ms⟩], reg.length)

/-- `StructMember` from convert.c: field name, base type text, pointer depth
and array extent (the `unsigned array_size` field receives the `int` result
of `atoi`, so the value is reduced modulo 2^32). -/
structure StructMember where
  name : String
  type : String
  n_ptrs : Nat
  array_size : Nat
  deriving DecidableEq, Repr

/-- C conversion of a (possibly negative) `int` to `unsigned int`. -/
def intToUnsigned (v : Int) : Nat := (v % (4294967296 : Int)).toNat

/-- `find_token_index` from convert.c: index of the first token whose
spelling compares equal to `str`; not finding one is a fatal exit. -/
def find_token_index_go : List String → String → Nat → Except EvalErr Nat
  | [], str, _ => .error (.tokenNotFound str)
  | t :: ts, str, i => if t = str then .ok i else find_token_index_go ts str (i + 1)

/-- `find_token_index(tokens, n_tokens, str)` from convert.c. -/
def find_token_index (tokens : List String) (str : String) : Except EvalErr Nat :=
  find_token_index_go tokens str 0

/-- The per-field body of `fill_struct_members` from convert.c.  `tokens` is
the field declaration's extent tokenized by libclang (which appends the one
token following the extent), `str` the field's cursor spelling, `acc` the
members already collected for this struct (`decl->entries`).  The source
locates the name token, reads `tokens[idx+1]`/`tokens[idx+2]` for an
`[ <digits> ]` array suffix, then walks backwards from `tokens[idx-1]`
counting consecutive `*` tokens; if the token before the pointer stars is a
`,`, the previous member's base type is inherited (reading
`decl->entries[n-1]`, which is out of bounds when no previous member exists:
that unreachable-in-well-formed-C read is modelled as an assertion error),
otherwise the base type is the spelling of tokens 0 through that position.
The backward walk is modelled for extents that do not begin with a `*`
(true of every C field declaration, which starts with a type token). -/
def fill_struct_member (tokens : List String) (str : String)
    (acc : List StructMember) : Except EvalErr StructMember :=
  match find_token_index tokens str with
  | .error e => .error e
  | .ok idx =>
    let array_size : Nat :=
      if tokens.getD (idx + 1) "" = "[" then
        intToUnsigned (atoi (tokens.getD (idx + 2) ""))
      else 0
    let n_ptrs : Nat := ((tokens.take idx).reverse.takeWhile (fun t => t == "*")).length
    let im1 : Nat := idx - 1 - n_ptrs
    if tokens.getD im1 "" = "," then
      match acc.getLast? with
      | some prev => .ok ⟨str, prev.type, n_ptrs, array_size⟩
      | none => .error .assertFail
    else .ok ⟨str, concat_name tokens 0 im1, n_ptrs, array_size⟩

/-- `clang_visitChildren(cursor, fill_struct_members, decl)`: the field
declarations are visited in order, each appending one member.  A field is
given as its extent's token spellings paired with the field name. -/
def fill_struct_members_go (acc : List StructMember) :
    List (List String × String) → Except EvalErr (List StructMember)
  | [] => .ok acc
  | (toks, nm) :: fs =>
    match fill_struct_member toks nm acc with
    | .error e => .error e
    | .ok m => fill_struct_members_go (acc ++ [m]) fs

/-- All members of one struct declaration, in field order. -/
def fill_struct_members (fields : List (List String × String)) :
    Except EvalErr (List StructMember) :=
  fill_struct_members_go [] fields

/-- `StructDeclaration` from convert.c, with the `CXCursor` node identity
modelled as a `Nat` handle. -/
structure StructDeclaration where
  name : String
  cursor : Nat
  entries : List StructMember
  deriving DecidableEq, Repr

/-- The de-duplication scan of `register_struct`: index of the first
registered struct whose name matches and whose node identity differs. -/
def find_existing_struct : List StructDeclaration → String → Nat → Nat → Option Nat
  | [], _, _, _ => none
  | d :: ds, str, cursor, i =>
    if d.name = str ∧ d.cursor ≠ cursor then some i
    else find_existing_struct ds str cursor (i + 1)

/-- `register_struct` from convert.c.  If an entry with the same name but a
different node identity exists the registry is left untouched and that entry
is linked (the returned index models `decl_ptr->struct_decl`); otherwise a
fresh entry is appended and its fields are filled. -/
def register_struct (reg : List StructDeclaration) (str : String) (cursor : Nat)
    (fields : List (List String × String)) :
    Except EvalErr (List StructDeclaration × Nat) :=
  match find_existing_struct reg str cursor 0 with
  | some i => .ok (reg, i)
  | none =>
    match fill_struct_members fields with
    | .error e => .error e
    | .ok ms => .ok (reg ++ [⟨str, cursor, ms⟩], reg.length)

/-- `TypedefDeclaration` from convert.c: the struct reference, enum reference
and proxy text fields (references modelled as `Nat` handles); `none` models
a NULL pointer / absent value. -/
structure TypedefDeclaration where
  name : String
  struct_decl : Option Nat
  enum_decl : Option Nat
  proxy : Option String
  deriving DecidableEq, Repr

/-- `register_typedef` from convert.c.  The destination slot `typedefs[n]`
comes from `realloc` and is never cleared, so before the assignments its
fields hold indeterminate residual memory, modelled by the `residual`
argument.  The function assigns the name and then exactly one of the three
alternatives (struct reference, else enum reference, else the proxy text
`concat_name(tokens, 1, n_tokens - 3)`), leaving the other two fields with
whatever the slot already held. -/
def register_typedef (residual : TypedefDeclaration) (name : String)
    (tokens : List String) (struct_decl enum_decl : Option Nat) :
    TypedefDeclaration :=
  let e0 := { residual with name := name }
  match struct_decl with
  | some s => { e0 with struct_decl := some s }
  | none =>
    match enum_decl with
    | some d => { e0 with enum_decl := some d }
    | none => { e0 with proxy := some (concat_name tokens 1 (tokens.length - 3)) }

/-- A token as `print_tokens` consumes it: the spelling (as characters, so
the emitted byte stream can be stated) and the 1-based line and column that
`clang_getSpellingLocation` reports for it. -/
structure PTok where
  spelling : List Char
  line : Nat
  col : Nat
  deriving DecidableEq, Repr

/-- The loop of `print_tokens` from convert.c.  `cpos`/`lnum` are the
running 0-based output column and line; for each token the source decrements
the 1-based clang position, asserts `line >= lnum` (modelled as `none`),
emits newlines up to the token's line (resetting the column when at least
one newline is emitted), emits spaces up to the token's column, then the
spelling, advancing `cpos` by its length.  After the last token a final
newline is emitted. -/
def printLoop : Nat → Nat → List PTok → Option (List Char)
  | _, _, [] => some ['\n']
  | cpos, lnum, t :: ts =>
    let line := t.line - 1
    let col := t.col - 1
    if line < lnum then none
    else
      let cpos0 := if lnum < line then 0 else cpos
      let sps := col - cpos0
      match printLoop (cpos0 + sps + t.spelling.length) line ts with
      | none => none
      | some rest =>
        some (List.replicate (line - lnum) '\n' ++ List.replicate sps ' '
          ++ t.spelling ++ rest)

/-- `print_tokens` from convert.c: the byte stream written to stdout, or
`none` when the `assert(line >= lnum)` fails. -/
def print_tokens (ts : List PTok) : Option (List Char) := printLoop 0 0 ts

/-- Column of the writing position after emitting `s`, measured on the
reversed character list: 0 right after a newline, otherwise one more than
before. -/
def colRev : List Char → Nat
  | [] => 0
  | c :: r => if c = '\n' then 0 else colRev r + 1

/-- Column of the writing position after emitting `s` (number of characters
after the last newline of `s`). -/
def colOf (s : List Char) : Nat := colRev s.reverse

/-- The output `out` contains an occurrence of `sp` that starts at 1-based
line `line` and column `col`: the prefix before it holds `line - 1` newlines
and `col - 1` characters after its last newline. -/
def beginsAt (out : List Char) (sp : List Char) (line col : Nat) : Prop :=
  ∃ a b, out = a ++ sp ++ b ∧ a.count '\n' = line - 1 ∧ colOf a = col - 1

/-- A token whose recorded position is a genuine clang position (1-based)
and whose spelling stays on one line. -/
def TokWF (t : PTok) : Prop := 1 ≤ t.line ∧ 1 ≤ t.col ∧ '\n' ∉ t.spelling

instance (t : PTok) : Decidable (TokWF t) :=
  inferInstanceAs (Decidable (1 ≤ t.line ∧ 1 ≤ t.col ∧ '\n' ∉ t.spelling))

/-- Adjacent tokens are recorded in source order: lines nondecreasing, and a
token sharing its predecessor's line starts at or after the predecessor's
end. -/
def TokOrder (t u : PTok) : Prop :=
  t.line ≤ u.line ∧ (t.line = u.line → t.col + t.spelling.length ≤ u.col)

/-- The cursor kinds `callback` dispatches on, plus `otherKind` for every
kind reaching the `default:` branch, carrying the raw `CXCursorKind` value
(clang-c/Index.h numbers the handled kinds 20, 2, 5, 112, 43, 119, 100, 47,
106, 101 respectively). -/
inductive CursorKind where
  | TypedefDecl : CursorKind
  | StructDecl : CursorKind
  | EnumDecl : CursorKind
  | CompoundLiteralExpr : CursorKind
  | TypeRef : CursorKind
  | InitListExpr : CursorKind
  | UnexposedExpr : CursorKind
  | MemberRef : CursorKind
  | IntegerLiteral : CursorKind
  | DeclRefExpr : CursorKind
  | otherKind (code : Nat) : CursorKind
  deriving DecidableEq, Repr

/-- The integer `CXCursorKind` value, as printed by `%d`. -/
def kindCode : CursorKind → Nat
  | .TypedefDecl => 20
  | .StructDecl => 2
  | .EnumDecl => 5
  | .CompoundLiteralExpr => 112
  | .TypeRef => 43
  | .InitListExpr => 119
  | .UnexposedExpr => 100
  | .MemberRef => 47
  | .IntegerLiteral => 106
  | .DeclRefExpr => 101
  | .otherKind c => c

/-- The single-quote character, as a string (the `default:` branch of
`callback` prints each token spelling between single quotes). -/
def sq : String := ⟨[Char.ofNat 39]⟩

/-- The bytes one `callback` invocation writes to stdout in convert.c.  A
`CXCursor_MemberRef` under a designated initializer hits a plain
`printf("member: %s (parent: %d)\n", ...)`; the `default:` branch sits
between `#define DEBUG 1` and `#define DEBUG 0`, so its `dprintf`s expand to
unconditional `printf`s: one `DERP:` line for the cursor and one
`token = ...` line per token of its extent.  Every other case writes nothing
(its `dprintf`s expand under `DEBUG 0`). -/
def callback_stdout (kind parent : CursorKind) (spelling : String)
    (tokens : List (String × Nat × Nat)) (line col : Nat)
    (filename : String) : List Char :=
  match kind, parent with
  | .MemberRef, .UnexposedExpr =>
    ("member: " ++ spelling ++ " (parent: "
      ++ toString (kindCode CursorKind.UnexposedExpr) ++ ")\n").data
  | .otherKind c, p =>
    ("DERP: " ++ toString c ++ " [" ++ toString (kindCode p) ++ "] "
      ++ spelling ++ " @ " ++ toString line ++ ":" ++ toString col
      ++ " in " ++ filename ++ "\n").data
    ++ (tokens.map (fun tk =>
        ("token = " ++ sq ++ tk.1 ++ sq ++ " @ " ++ toString tk.2.1 ++ ":"
          ++ toString tk.2.2 ++ "\n").data)).flatten
  | _, _ => []

/-- One visited cursor, as seen by `callback`: its kind, its parent's kind,
its spelling, its extent's tokens with their positions, its own position and
file name. -/
structure VisitRecord where
  kind : CursorKind
  parent : CursorKind
  spelling : String
  tokens : List (String × Nat × Nat)
  line : Nat
  col : Nat
  filename : String
  deriving Repr

/-- Everything `main` writes to stdout on a run that reaches the printer:
`clang_visitChildren(cursor, callback, 0)` runs first (the traversal is
given as the linearized sequence of visited cursors, each contributing
`callback_stdout`), then `print_tokens` emits the translation unit's token
stream. -/
def main_stdout (visits : List VisitRecord) (toks : List PTok) :
    Option (List Char) :=
  match print_tokens toks with
  | none => none
  | some out =>
    some ((visits.map (fun v =>
      callback_stdout v.kind v.parent v.spelling v.tokens v.line v.col
        v.filename)).flatten ++ out)

/-- The enum-registration part of the traversal: each `CXCursor_EnumDecl`
reaching `callback` is registered in order.  A declaration is its name, its
node identity and its enumerator list. -/
def register_enum_phase_go (reg : List EnumDeclaration) :
    List (String × Nat × List EnumConstDecl) → Except EvalErr (List EnumDeclaration)
  | [] => .ok reg
  | (nm, cur, ch) :: ds =>
    match register_enum reg nm cur ch with
    | .error e => .error e
    | .ok (reg2, _) => register_enum_phase_go reg2 ds

/-- Registration of a translation unit's enum declarations, starting from
the empty registry `main` begins with. -/
def register_enum_phase (ds : List (String × Nat × List EnumConstDecl)) :
    Except EvalErr (List EnumDeclaration) :=
  register_enum_phase_go [] ds

/-- The order of `main` from convert.c: the registering traversal runs to
completion before `print_tokens` is called, and any fatal error during it
terminates the process, so nothing is printed. -/
def run_tu (ds : List (String × Nat × List EnumConstDecl)) (toks : List PTok) :
    Except EvalErr (Option (List Char)) :=
  match register_enum_phase ds with
  | .error e => .error e
  | .ok _ => .ok (print_tokens toks)

/-- Modelled from the spec: the hoisting rewriter of spec section 4.4 is not
implemented in src/convert.c (`callback` only traverses the AST, and
`print_tokens` reprints the unmodified stream), so the statements of a block
are modelled from the spec's algorithm.  A statement is either a plain run
of tokens or a statement containing one compound-literal site:
`pre ++ literal ++ post` with resolved type text `ty`, initializer tokens
`ini` and fresh temporary name `temp`. -/
inductive Stm where
  | plain (toks : List String) : Stm
  | litStmt (pre : List String) (ty : List String) (temp : String)
      (ini : List String) (post : List String) : Stm

/-- Modelled from the spec: the hoisting rewrite of one block (spec section
4.4).  Statements before the literal's statement are emitted unchanged; at
the literal's statement a new scope opens, the temporary's declaration
`ty temp = ini ;` is emitted, then the enclosing statement with the literal
replaced by the temporary, then every following statement of the block is
re-emitted recursively inside the same scope, which is closed last. -/
def rewrite_block : List Stm → List String
  | [] => []
  | .plain t :: rest => t ++ rewrite_block rest
  | .litStmt pre ty temp ini post :: rest =>
    ["\x7b"] ++ ty ++ [temp, "="] ++ ini ++ [";"] ++ (pre ++ [temp] ++ post)
      ++ rewrite_block rest ++ ["\x7d"]

/-- Each listed token run occurs contiguously in `out`, pairwise disjoint
and in the listed order. -/
def appearsInOrder : List (List String) → List String → Prop
  | [], _ => True
  | s :: ss, out => ∃ a b, out = a ++ s ++ b ∧ appearsInOrder ss b

/-! Theorems -/

/-- C7: struct field shape extraction.  For a field declared `int *p[4];`
(extent tokens `int * p [ 4 ]` plus the trailing `;`), the registered member
has pointer depth 1, array extent 4 and base type text `int`; for the
comma-separated declaration `int a, b;` both registered members have base
type text `int`, the second inheriting the first's base type through the
`,` token preceding its name. -/
theorem struct_member_shape_extraction :
    fill_struct_members [(["int", "*", "p", "[", "4", "]", ";"], "p")]
      = .ok [⟨"p", "int", 1, 4⟩]
    ∧ fill_struct_members
        [(["int", "a", ","], "a"), (["int", "a", ",", "b", ";"], "b")]
      = .ok [⟨"a", "int", 0, 0⟩, ⟨"b", "int", 0, 0⟩] :=
  ⟨rfl, rfl⟩

/-- C10: the `/` and `%` cases of `arithmetic_expression` apply C truncating
division and remainder with no guard on the right operand: for every operand
pair, including a zero divisor, the result is `.ok` of the applied operation
and no error path is taken, also when the division is reached through a
binary enum initializer.  `Int.tdiv`/`Int.tmod` totalize the C operations,
whose zero-divisor case is undefined behaviour in C, so evaluation is only
well-defined under the precondition that the divisor is nonzero. -/
theorem division_unguarded :
    (∀ v1 v2 : Int,
      arithmetic_expression v1 "/" v2 = .ok (Int.tdiv v1 v2)
      ∧ arithmetic_expression v1 "%" v2 = .ok (Int.tmod v1 v2))
    ∧ fill_enum_value [] (CExpr.binOp "/" (.intLit "8") (.intLit "0"))
        = .ok [Int.tdiv 8 0]
    ∧ fill_enum_value [] (CExpr.binOp "%" (.intLit "8") (.intLit "0"))
        = .ok [Int.tmod 8 0] :=
  ⟨fun _ _ => ⟨rfl, rfl⟩, rfl, rfl⟩

/-- C3 counterexample: a left-shift enum initializer does not evaluate to
the shifted value.  `1 << 5` has three extent tokens (four with libclang's
trailing token), so the evaluator's token-count assertion passes and
`arithmetic_expression` is reached with the two-character spelling `<<`,
which fails the `assert(expr[1] == 0)` single-character-operator assertion
instead of producing 32. -/
theorem shift_operator_not_evaluated :
    arithmetic_expression 1 "<<" 5 = .error .assertFail
    ∧ fill_enum_value [] (CExpr.binOp "<<" (.intLit "1") (.intLit "5"))
        = .error .assertFail
    ∧ (Except.error EvalErr.assertFail : Except EvalErr Int) ≠ .ok 32 :=
  ⟨rfl, rfl, fun h => Except.noConfusion h⟩

/-- C3 (amended): for every binary enum initializer whose operator is one of
the single-character operators + - * / % & | ^, the constant evaluator
returns the exact integer result of applying that operator to the two
resolved operand values, with truncating division and C-style modulo; a
binary initializer with any other single-character operator token terminates
the run with the unsupported-expression diagnostic, and a multi-character
operator token (such as `<<`) terminates it via the single-character
assertion. -/
theorem arithmetic_expression_exact :
    (∀ v1 v2 : Int,
      arithmetic_expression v1 "^" v2 = .ok (Int.xor v1 v2)
      ∧ arithmetic_expression v1 "|" v2 = .ok (Int.lor v1 v2)
      ∧ arithmetic_expression v1 "&" v2 = .ok (Int.land v1 v2)
      ∧ arithmetic_expression v1 "+" v2 = .ok (v1 + v2)
      ∧ arithmetic_expression v1 "-" v2 = .ok (v1 - v2)
      ∧ arithmetic_expression v1 "*" v2 = .ok (v1 * v2)
      ∧ arithmetic_expression v1 "/" v2 = .ok (Int.tdiv v1 v2)
      ∧ arithmetic_expression v1 "%" v2 = .ok (Int.tmod v1 v2))
    ∧ arithmetic_expression 2 "+" 3 = .ok 5
    ∧ arithmetic_expression 8 "/" 3 = .ok 2
    ∧ (∀ (reg : List EnumDeclaration) (op : String) (l r : CExpr) (a b v : Int),
        tokenCount l = 1 → tokenCount r = 1 →
        fill_enum_value reg l = .ok [a] → fill_enum_value reg r = .ok [b] →
        arithmetic_expression a op b = .ok v →
        fill_enum_value reg (.binOp op l r) = .ok [v])
    ∧ (∀ (v1 v2 : Int) (c : Char),
        c ∉ (['^', '|', '&', '+', '-', '*', '/', '%'] : List Char) →
        arithmetic_expression v1 ⟨[c]⟩ v2 = .error (.unknownArith ⟨[c]⟩))
    ∧ (∀ (v1 v2 : Int) (s : String), s.data.length ≠ 1 →
        arithmetic_expression v1 s v2 = .error .assertFail) := by
  refine ⟨fun v1 v2 => ⟨rfl, rfl, rfl, rfl, rfl, rfl, rfl, rfl⟩, rfl, rfl, ?_, ?_, ?_⟩
  · intro reg op l r a b v hl hr hel her hab
    simp only [fill_enum_value, tokenCount, hl, hr, hel, her]
    norm_num
    simp [hab]
  · intro v1 v2 c hc
    simp only [List.mem_cons, List.mem_singleton, not_or] at hc
    obtain ⟨h1, h2, h3, h4, h5, h6, h7, h8⟩ := hc
    simp [arithmetic_expression, h1, h2, h3, h4, h5, h6, h7, h8]
  · intro v1 v2 s hs
    unfold arithmetic_expression
    match h : s.data with
    | [] => rfl
    | [c] => exact absurd (by rw [h]; rfl) hs
    | c :: d :: l => rfl

/-- C3 witness: the amended theorem applied at concrete inputs — the
initializer `2 + 3` evaluates to 5 through the evaluator, and the operator
token `~` is rejected with the unsupported-expression diagnostic. -/
theorem arithmetic_expression_exact_witness :
    fill_enum_value [] (CExpr.binOp "+" (.intLit "2") (.intLit "3")) = .ok [5]
    ∧ arithmetic_expression 1 ⟨['~']⟩ 1 = .error (.unknownArith ⟨['~']⟩) :=
  ⟨arithmetic_expression_exact.2.2.2.1 [] "+" (.intLit "2") (.intLit "3")
      2 3 5 rfl rfl rfl rfl rfl,
    arithmetic_expression_exact.2.2.2.2.1 1 1 '~' (by decide)⟩

/-- C6: the exactly-one-alternative invariant is not established by
`register_typedef` — it assigns the name and exactly one of the three
alternatives but never clears the other two fields of the reallocated slot,
so with nonzero residual slot memory the registered entry carries two set
alternatives (here both a struct reference and a residual enum reference).
With a zeroed slot exactly one alternative would be set, which is what the
`cleanup` pass reading these fields relies on. -/
theorem register_typedef_residual_fields :
    ( register_typedef ⟨"", none, some 7, none⟩ "T"
        ["typedef", "struct", "S", "T", ";"] (some 5) none).struct_decl = some 5
    ∧ ( register_typedef ⟨"", none, some 7, none⟩ "T"
        ["typedef", "struct", "S", "T", ";"] (some 5) none).enum_decl = some 7
    ∧ (∀ (name : String) (tokens : List String) (sd ed : Option Nat),
        ( register_typedef ⟨"", none, none, none⟩ name tokens sd ed).struct_decl.toList.length
          + ( register_typedef ⟨"", none, none, none⟩ name tokens sd ed).enum_decl.toList.length
          + ( register_typedef ⟨"", none, none, none⟩ name tokens sd ed).proxy.toList.length
          = 1) := by
  refine ⟨rfl, rfl, ?_⟩
  intro name tokens sd ed
  cases sd <;> cases ed <;> simp [register_typedef]

/-- C9: on a run that reaches the printer, stdout is not only the rendered
token stream.  A `CXCursor_MemberRef` under a designated initializer makes
`callback` print a `member: ...` line through a plain `printf`, and any
cursor kind reaching the `default:` branch (e.g. a function declaration)
prints a `DERP:` diagnostic line, because that branch's `dprintf`s sit
between `#define DEBUG 1` and `#define DEBUG 0`; both precede the token
stream emitted by `print_tokens`. -/
theorem callback_debug_output_on_stdout :
    main_stdout [⟨.MemberRef, .UnexposedExpr, "f", [], 3, 4, "a.c"⟩]
        [⟨['x'], 1, 1⟩]
      = some (("member: f (parent: 100)\n").data ++ ['x', '\n'])
    ∧ print_tokens [⟨['x'], 1, 1⟩] = some ['x', '\n']
    ∧ ("member: f (parent: 100)\n").data ≠ []
    ∧ callback_stdout (.otherKind 8) (.otherKind 300) "main" [] 1 5 "a.c" ≠ [] := by
  refine ⟨rfl, rfl, ?_, ?_⟩ <;> decide

/-- The de-duplication scan of `register_enum` finds some matching entry
whenever one exists, returning its absolute registry index. -/
theorem find_existing_enum_spec :
    ∀ (reg : List EnumDeclaration) (str : String) (cursor k : Nat),
      (∃ d ∈ reg, d.name = str ∧ d.cursor ≠ cursor) →
      ∃ j d, find_existing_enum reg str cursor k = some (k + j)
        ∧ reg.get? j = some d ∧ d.name = str ∧ d.cursor ≠ cursor := by
  intro reg
  induction reg with
  | nil => intro str cursor k h; simp at h
  | cons d ds ih =>
    intro str cursor k h
    by_cases hd : d.name = str ∧ d.cursor ≠ cursor
    · refine ⟨0, d, ?_, rfl, hd.1, hd.2⟩
      simp [find_existing_enum, hd]
    · have h' : ∃ x ∈ ds, x.name = str ∧ x.cursor ≠ cursor := by
        rcases h with ⟨x, hx, hxp⟩
        rcases List.mem_cons.mp hx with rfl | hxds
        · exact absurd hxp hd
        · exact ⟨x, hxds, hxp⟩
      obtain ⟨j, x, hfind, hget, hn, hc⟩ := ih str cursor (k + 1) h'
      refine ⟨j + 1, x, ?_, hget, hn, hc⟩
      rw [show find_existing_enum (d :: ds) str cursor k
            = find_existing_enum ds str cursor (k + 1) by
          simp [find_existing_enum, hd]]
      rw [hfind]
      congr 1
      omega

/-- The de-duplication scan of `register_struct` finds some matching entry
whenever one exists, returning its absolute registry index. -/
theorem find_existing_struct_spec :
    ∀ (reg : List StructDeclaration) (str : String) (cursor k : Nat),
      (∃ d ∈ reg, d.name = str ∧ d.cursor ≠ cursor) →
      ∃ j d, find_existing_struct reg str cursor k = some (k + j)
        ∧ reg.get? j = some d ∧ d.name = str ∧ d.cursor ≠ cursor := by
  intro reg
  induction reg with
  | nil => intro str cursor k h; simp at h
  | cons d ds ih =>
    intro str cursor k h
    by_cases hd : d.name = str ∧ d.cursor ≠ cursor
    · refine ⟨0, d, ?_, rfl, hd.1, hd.2⟩
      simp [find_existing_struct, hd]
    · have h' : ∃ x ∈ ds, x.name = str ∧ x.cursor ≠ cursor := by
        rcases h with ⟨x, hx, hxp⟩
        rcases List.mem_cons.mp hx with rfl | hxds
        · exact absurd hxp hd
        · exact ⟨x, hxds, hxp⟩
      obtain ⟨j, x, hfind, hget, hn, hc⟩ := ih str cursor (k + 1) h'
      refine ⟨j + 1, x, ?_, hget, hn, hc⟩
      rw [show find_existing_struct (d :: ds) str cursor k
            = find_existing_struct ds str cursor (k + 1) by
          simp [find_existing_struct, hd]]
      rw [hfind]
      congr 1
      omega

/-- C5: registering a struct or enum whose name already exists in its
registry under a different node identity leaves the registry unchanged (the
returned registry is the old one, hence of the same size, and no fresh entry
is appended) and links an existing entry bearing that name: the returned
index refers to a registered entry with the same name and a differing node
identity. -/
theorem register_dedup_preserves_registry :
    (∀ (reg : List StructDeclaration) (str : String) (cursor : Nat)
        (fields : List (List String × String)),
      (∃ d ∈ reg, d.name = str ∧ d.cursor ≠ cursor) →
      ∃ i d, register_struct reg str cursor fields = .ok (reg, i)
        ∧ reg.get? i = some d ∧ d.name = str ∧ d.cursor ≠ cursor)
    ∧ (∀ (reg : List EnumDeclaration) (str : String) (cursor : Nat)
        (children : List EnumConstDecl),
      (∃ d ∈ reg, d.name = str ∧ d.cursor ≠ cursor) →
      ∃ i d, register_enum reg str cursor children = .ok (reg, i)
        ∧ reg.get? i = some d ∧ d.name = str ∧ d.cursor ≠ cursor) := by
  constructor
  · intro reg str cursor fields h
    obtain ⟨j, d, hfind, hget, hn, hc⟩ := find_existing_struct_spec reg str cursor 0 h
    refine ⟨j, d, ?_, hget, hn, hc⟩
    simp only [register_struct]
    rw [hfind]
    simp
  · intro reg str cursor children h
    obtain ⟨j, d, hfind, hget, hn, hc⟩ := find_existing_enum_spec reg str cursor 0 h
    refine ⟨j, d, ?_, hget, hn, hc⟩
    simp only [register_enum]
    rw [hfind]
    simp

/-- C5 witness: re-registering the name `S` with node identity 2 while the
registries hold `S` with node identity 1 links the existing entries and
leaves both registries unchanged. -/
theorem register_dedup_preserves_registry_witness :
    (∃ i d, register_struct [⟨"S", 1, []⟩] "S" 2 [] = .ok ([⟨"S", 1, []⟩], i)
      ∧ ([⟨"S", 1, []⟩] : List StructDeclaration).get? i = some d
      ∧ d.name = "S" ∧ d.cursor ≠ 2)
    ∧ (∃ i d, register_enum [⟨"E", 1, []⟩] "E" 2 [] = .ok ([⟨"E", 1, []⟩], i)
      ∧ ([⟨"E", 1, []⟩] : List EnumDeclaration).get? i = some d
      ∧ d.name = "E" ∧ d.cursor ≠ 2) :=
  ⟨register_dedup_preserves_registry.1 [⟨"S", 1, []⟩] "S" 2 []
      ⟨⟨"S", 1, []⟩, by simp, rfl, by decide⟩,
    register_dedup_preserves_registry.2 [⟨"E", 1, []⟩] "E" 2 []
      ⟨⟨"E", 1, []⟩, by simp, rfl, by decide⟩⟩

/-- The inner loop of `find_enum_value` is `find?` on one enum's member
list. -/
theorem find_in_entries_eq (l : List EnumMember) (str : String) :
    find_in_entries l str
      = (l.find? (fun m => m.name == str)).map EnumMember.value := by
  induction l with
  | nil => rfl
  | cons m ms ih =>
    by_cases h : m.name = str
    · simp [find_in_entries, List.find?_cons, h]
    · simp [find_in_entries, List.find?_cons, h, ih]

/-- C4: `find_enum_value` scans all registered enums' members in
registration order and returns the value of the first member bearing the
looked-up name — it equals `find?` on the concatenation of all member lists
— and when no registered member bears the name it is the fatal
lookup-failure exit naming the constant.  Because `main` runs the
registering traversal to completion before `print_tokens`, a fatal
registration error means the run produces no rewritten output, as the
pipeline conjunct and the concrete undefined-reference run show. -/
theorem find_enum_value_first_match_or_fatal :
    (∀ (reg : List EnumDeclaration) (str : String),
      find_enum_value reg str
        = match (reg.map EnumDeclaration.entries).flatten.find?
              (fun m => m.name == str) with
          | some m => .ok m.value
          | none => .error (.unknownEnumValue str))
    ∧ (∀ (ds : List (String × Nat × List EnumConstDecl)) (toks : List PTok)
        (e : EvalErr),
        register_enum_phase ds = .error e → run_tu ds toks = .error e)
    ∧ register_enum_phase [("E", 0, [⟨"A", [CExpr.declRef "MISSING"]⟩])]
        = .error (.unknownEnumValue "MISSING")
    ∧ run_tu [("E", 0, [⟨"A", [CExpr.declRef "MISSING"]⟩])] [⟨['x'], 1, 1⟩]
        = .error (.unknownEnumValue "MISSING") := by
  refine ⟨?_, ?_, rfl, rfl⟩
  · intro reg
    induction reg with
    | nil => intro str; rfl
    | cons d ds ih =>
      intro str
      simp only [find_enum_value, find_in_entries_eq, List.map_cons,
        List.flatten_cons, List.find?_append]
      cases h : d.entries.find? (fun m => m.name == str) with
      | some m => simp [h]
      | none => simp [h, ih str]
  · intro ds toks e h
    simp only [run_tu, h]

/-- C4 witness: the pipeline conjunct applied at the concrete run whose
single enum references the undefined constant `MISSING`: the run terminates
with the lookup-failure diagnostic and never reaches the printer. -/
theorem find_enum_value_first_match_or_fatal_witness :
    run_tu [("E", 0, [⟨"A", [CExpr.declRef "MISSING"]⟩])] [⟨['x'], 1, 1⟩]
      = .error (.unknownEnumValue "MISSING") :=
  find_enum_value_first_match_or_fatal.2.1
    [("E", 0, [⟨"A", [CExpr.declRef "MISSING"]⟩])] [⟨['x'], 1, 1⟩]
    (.unknownEnumValue "MISSING") rfl

/-- The last element of a nonempty `take` prefix is the element before the
cut. -/
theorem take_getLast_of_lt (l : List EnumMember) (j : Nat) (hj : j < l.length) :
    (l.take (j + 1)).getLast? = some (l.getD j ⟨"", 0⟩) := by
  have h1 : (l.take (j + 1)).length = j + 1 := by rw [List.length_take]; omega
  rw [List.getLast?_eq_getElem? (l.take (j + 1)), h1]
  simp only [Nat.add_sub_cancel]
  rw [List.getElem?_take, if_pos (Nat.lt_succ_self j),
    List.getElem?_eq_getElem hj,
    List.getD_eq_getElem?_getD l j ⟨"", 0⟩, List.getElem?_eq_getElem hj]
  rfl

/-- A single child's values, as `clang_visitChildren` collects them. -/
theorem evalChildren_singleton (reg : List EnumDeclaration) (e : CExpr)
    (vs : List Int) (h : fill_enum_value reg e = .ok vs) :
    evalChildren reg [e] = .ok vs := by
  simp [evalChildren, h]

/-- Specification of the `fill_enum_members` recursion: starting from the
already-collected members `acc`, a successful run appends one member per
enumerator, preserving names; an enumerator without initializer children
gets 0 when nothing precedes it and the previous member's value plus one
otherwise, and an enumerator whose single child evaluates to one value (in
the registry extended with the in-progress enum) gets that value. -/
theorem fill_enum_members_go_spec :
    ∀ (ds : List EnumConstDecl) (reg : List EnumDeclaration) (name : String)
      (cursor : Nat) (acc ms : List EnumMember),
      fill_enum_members_go reg name cursor acc ds = .ok ms →
      ∃ tl, ms = acc ++ tl ∧ tl.length = ds.length ∧
        ∀ i, i < ds.length →
          (tl.getD i ⟨"", 0⟩).name = (ds.getD i ⟨"", []⟩).name ∧
          ((ds.getD i ⟨"", []⟩).children = [] →
            (tl.getD i ⟨"", 0⟩).value =
              (match (acc ++ tl.take i).getLast? with
               | none => 0
               | some m => m.value + 1)) ∧
          (∀ e v, (ds.getD i ⟨"", []⟩).children = [e] →
            fill_enum_value (reg ++ [⟨name, cursor, acc ++ tl.take i⟩]) e
              = .ok [v] →
            (tl.getD i ⟨"", 0⟩).value = v) := by
  intro ds
  induction ds with
  | nil =>
    intro reg name cursor acc ms h
    simp only [fill_enum_members_go, Except.ok.injEq] at h
    subst h
    exact ⟨[], by simp, rfl, fun i hi => absurd hi (by simp)⟩
  | cons d ds ih =>
    intro reg name cursor acc ms h
    simp only [fill_enum_members_go] at h
    cases heval : evalChildren (reg ++ [⟨name, cursor, acc⟩]) d.children with
    | error e => rw [heval] at h; exact absurd h (by simp)
    | ok vals =>
      rw [heval] at h
      dsimp only at h
      by_cases hlen : 2 ≤ vals.length
      · rw [if_pos hlen] at h; exact absurd h (by simp)
      · rw [if_neg hlen] at h
        rcases vals with _ | ⟨v0, _ | ⟨v1, vrest⟩⟩
        · -- no initializer value: the default applies
          have h' : fill_enum_members_go reg name cursor
              (acc ++ [⟨d.name, match acc.getLast? with
                | none => 0
                | some m => m.value + 1⟩]) ds = .ok ms := h
          obtain ⟨tl', hms, hlen', hprops'⟩ :=
            ih reg name cursor (acc ++ [⟨d.name, _⟩]) ms h'
          refine ⟨⟨d.name, match acc.getLast? with
              | none => 0
              | some m => m.value + 1⟩ :: tl', by simpa using hms,
            by simpa using hlen', ?_⟩
          intro i hi
          cases i with
          | zero =>
            simp only [List.getD_cons_zero]
            refine ⟨trivial, fun _ => by simp, ?_⟩
            intro e v hce hfill
            rw [hce] at heval
            have : evalChildren (reg ++ [⟨name, cursor, acc⟩]) [e] = .ok [v] := by
              apply evalChildren_singleton
              simpa using hfill
            rw [this] at heval
            exact absurd heval (by simp)
          | succ j =>
            have hj : j < ds.length := by simpa using hi
            have hrw : ∀ X : List EnumMember,
                (acc ++ [(⟨d.name, match acc.getLast? with
                  | none => 0
                  | some m => m.value + 1⟩ : EnumMember)]) ++ X
                = acc ++ ((⟨d.name, match acc.getLast? with
                  | none => 0
                  | some m => m.value + 1⟩ : EnumMember) :: X) := by
              intro X; simp
            obtain ⟨hn, hdef, hexp⟩ := hprops' j hj
            refine ⟨by simpa using hn, ?_, ?_⟩
            · intro hc
              have := hdef (by simpa using hc)
              rw [hrw (tl'.take j)] at this
              simpa [List.take_succ_cons] using this
            · intro e v hce hfill
              have := hexp e v (by simpa using hce)
                (by rw [hrw (tl'.take j)]
                    simpa [List.take_succ_cons] using hfill)
              simpa using this
        · -- one initializer value: the explicit value applies
          have h' : fill_enum_members_go reg name cursor
              (acc ++ [⟨d.name, v0⟩]) ds = .ok ms := h
          obtain ⟨tl', hms, hlen', hprops'⟩ :=
            ih reg name cursor (acc ++ [⟨d.name, v0⟩]) ms h'
          refine ⟨⟨d.name, v0⟩ :: tl', by simpa using hms,
            by simpa using hlen', ?_⟩
          intro i hi
          cases i with
          | zero =>
            simp only [List.getD_cons_zero]
            refine ⟨trivial, ?_, ?_⟩
            · intro hc
              rw [hc] at heval
              exact absurd heval (by simp [evalChildren])
            · intro e v hce hfill
              rw [hce] at heval
              have : evalChildren (reg ++ [⟨name, cursor, acc⟩]) [e] = .ok [v] := by
                apply evalChildren_singleton
                simpa using hfill
              rw [this] at heval
              simpa using heval.symm
          | succ j =>
            have hj : j < ds.length := by simpa using hi
            have hrw : ∀ X : List EnumMember,
                (acc ++ [(⟨d.name, v0⟩ : EnumMember)]) ++ X
                = acc ++ ((⟨d.name, v0⟩ : EnumMember) :: X) := by
              intro X; simp
            obtain ⟨hn, hdef, hexp⟩ := hprops' j hj
            refine ⟨by simpa using hn, ?_, ?_⟩
            · intro hc
              have := hdef (by simpa using hc)
              rw [hrw (tl'.take j)] at this
              simpa [List.take_succ_cons] using this
            · intro e v hce hfill
              have := hexp e v (by simpa using hce)
                (by rw [hrw (tl'.take j)]
                    simpa [List.take_succ_cons] using hfill)
              simpa using this
        · exfalso
          simp only [List.length_cons] at hlen
          omega

/-- C2: enum member value resolution.  In every successfully registered
enum, a member whose single initializer child evaluates to a value takes
that value; a member without initializer children takes 0 when it is the
first member and the previous member's resolved value plus one otherwise
(initializers are evaluated against the registry extended with the enum
under construction, as in the source, where `n_enums` is incremented before
the members are filled).  In particular `{A, B, C}` resolves to 0, 1, 2 and
`{A = 5, B, C}` resolves to 5, 6, 7. -/
theorem enum_member_value_resolution :
    (∀ (reg : List EnumDeclaration) (name : String) (cursor : Nat)
        (ds : List EnumConstDecl) (ms : List EnumMember),
      fill_enum_members reg name cursor ds = .ok ms →
      ms.length = ds.length ∧
      ∀ i, i < ds.length →
        (ms.getD i ⟨"", 0⟩).name = (ds.getD i ⟨"", []⟩).name ∧
        ((ds.getD i ⟨"", []⟩).children = [] →
          (ms.getD i ⟨"", 0⟩).value
            = if i = 0 then 0 else (ms.getD (i - 1) ⟨"", 0⟩).value + 1) ∧
        (∀ e v, (ds.getD i ⟨"", []⟩).children = [e] →
          fill_enum_value (reg ++ [⟨name, cursor, ms.take i⟩]) e = .ok [v] →
          (ms.getD i ⟨"", 0⟩).value = v))
    ∧ (∀ (reg : List EnumDeclaration) (cursor : Nat),
        fill_enum_members reg "E" cursor [⟨"A", []⟩, ⟨"B", []⟩, ⟨"C", []⟩]
          = .ok [⟨"A", 0⟩, ⟨"B", 1⟩, ⟨"C", 2⟩])
    ∧ (∀ (reg : List EnumDeclaration) (cursor : Nat),
        fill_enum_members reg "E" cursor
          [⟨"A", [CExpr.intLit "5"]⟩, ⟨"B", []⟩, ⟨"C", []⟩]
          = .ok [⟨"A", 5⟩, ⟨"B", 6⟩, ⟨"C", 7⟩]) := by
  refine ⟨?_, fun reg cursor => rfl, fun reg cursor => rfl⟩
  intro reg name cursor ds ms h
  obtain ⟨tl, htl, hlen, hprops⟩ :=
    fill_enum_members_go_spec ds reg name cursor [] ms h
  simp only [List.nil_append] at htl
  subst htl
  refine ⟨hlen, ?_⟩
  intro i hi
  obtain ⟨hn, hdef, hexp⟩ := hprops i hi
  refine ⟨hn, ?_, ?_⟩
  · intro hc
    have hv := hdef hc
    simp only [List.nil_append] at hv
    cases i with
    | zero => simpa using hv
    | succ j =>
      have hj : j < ms.length := by omega
      rw [take_getLast_of_lt ms j hj] at hv
      simpa using hv
  · intro e v hce hfill
    exact hexp e v hce (by simpa using hfill)

/-- C2 witness: the general law applied at a concrete one-member enum with
the explicit initializer `5` — the member's resolved value is the
initializer's evaluated value. -/
theorem enum_member_value_resolution_witness :
    (([⟨"A", 5⟩] : List EnumMember).getD 0 ⟨"", 0⟩).value = 5 :=
  ((enum_member_value_resolution.1 [] "E" 0 [⟨"A", [CExpr.intLit "5"]⟩]
      [⟨"A", 5⟩] rfl).2 0 (by decide)).2.2 (CExpr.intLit "5") 5 rfl rfl

/-- A block of literal-free statements is re-emitted verbatim. -/
theorem rewrite_block_plain :
    ∀ ss : List (List String), rewrite_block (ss.map Stm.plain) = ss.flatten := by
  intro ss
  induction ss with
  | nil => rfl
  | cons s ss ih => simp [rewrite_block, ih]

/-- The statements of a flattened block appear in order after any prefix. -/
theorem appearsInOrder_flatten :
    ∀ (ss : List (List String)) (pre : List String),
      appearsInOrder ss (pre ++ ss.flatten) := by
  intro ss
  induction ss with
  | nil => intro pre; trivial
  | cons s ss ih =>
    intro pre
    refine ⟨pre, ss.flatten, by simp, ?_⟩
    simpa using ih []

/-- C1: statement-boundary containment of the hoisting rewrite (modelled
from the spec, section 4.4, since src/convert.c does not implement the
rewrite).  For a block consisting of literal-free statements, then the
statement containing the hoisted compound literal, then literal-free
following statements, the rewriter emits the preceding statements unchanged
and a new nested scope that holds the temporary's declaration, the
substituted statement and, after them and before the closing brace of that
same scope, every following statement of the original block, unchanged and
in relative order. -/
theorem hoisted_block_statement_containment :
    ∀ (pres : List (List String)) (pre ty : List String) (temp : String)
      (ini post : List String) (after : List (List String)),
      rewrite_block (pres.map Stm.plain
          ++ [Stm.litStmt pre ty temp ini post] ++ after.map Stm.plain)
        = pres.flatten
          ++ ["\x7b"] ++ (ty ++ [temp, "="] ++ ini ++ [";"])
          ++ ((pre ++ [temp] ++ post) ++ after.flatten) ++ ["\x7d"]
      ∧ appearsInOrder after ((pre ++ [temp] ++ post) ++ after.flatten) := by
  intro pres pre ty temp ini post after
  constructor
  · induction pres with
    | nil =>
      simp only [List.map_nil, List.nil_append, List.flatten_nil]
      show rewrite_block (Stm.litStmt pre ty temp ini post :: after.map Stm.plain)
        = _
      rw [rewrite_block, rewrite_block_plain]
      simp
    | cons p ps ih =>
      simp only [List.map_cons, List.cons_append]
      rw [rewrite_block]
      rw [show (ps.map Stm.plain ++ [Stm.litStmt pre ty temp ini post]
            ++ after.map Stm.plain) = (ps.map Stm.plain
            ++ ([Stm.litStmt pre ty temp ini post] ++ after.map Stm.plain)) by
        simp]
      rw [show (ps.map Stm.plain ++ ([Stm.litStmt pre ty temp ini post]
            ++ after.map Stm.plain)) = (ps.map Stm.plain
            ++ [Stm.litStmt pre ty temp ini post] ++ after.map Stm.plain) by
        simp] at *
      rw [ih]
      simp
  · exact appearsInOrder_flatten after (pre ++ [temp] ++ post)

/-- Writing-position column over an append, on reversed lists. -/
theorem colRev_append : ∀ X Y : List Char,
    colRev (X ++ Y) = if '\n' ∈ X then colRev X else X.length + colRev Y := by
  intro X
  induction X with
  | nil => intro Y; simp [colRev]
  | cons c X ih =>
    intro Y
    by_cases hc : c = '\n'
    · subst hc; simp [colRev]
    · have hc' : ¬ ('\n' = c) := fun h => hc h.symm
      have hL : colRev (c :: X ++ Y) = colRev (X ++ Y) + 1 := by
        simp [colRev, hc]
      by_cases hX : '\n' ∈ X
      · have hmem : '\n' ∈ c :: X := List.mem_cons_of_mem c hX
        rw [hL, ih, if_pos hX, if_pos hmem]
        simp [colRev, hc]
      · have hmem : '\n' ∉ c :: X := by
          simp [List.mem_cons, hc', hX]
        rw [hL, ih, if_neg hX, if_neg hmem]
        simp only [List.length_cons]
        omega

/-- Appending newline-free text advances the column by its length. -/
theorem colOf_append_no_nl (A B : List Char) (h : '\n' ∉ B) :
    colOf (A ++ B) = colOf A + B.length := by
  unfold colOf
  rw [List.reverse_append, colRev_append, if_neg (by simpa using h)]
  simp [Nat.add_comm]

/-- Appending text containing a newline resets the column to that text's
own final column. -/
theorem colOf_append_nl (A B : List Char) (h : '\n' ∈ B) :
    colOf (A ++ B) = colOf B := by
  unfold colOf
  rw [List.reverse_append, colRev_append, if_pos (by simpa using h)]

/-- Newline-free text ends at the column given by its length. -/
theorem colOf_no_nl (B : List Char) (h : '\n' ∉ B) : colOf B = B.length := by
  have := colOf_append_no_nl [] B h
  simpa [colOf, colRev] using this

/-- A nonempty run of newlines ends at column zero. -/
theorem colOf_replicate_nl (k : Nat) (hk : 1 ≤ k) :
    colOf (List.replicate k '\n') = 0 := by
  unfold colOf
  rw [List.reverse_replicate]
  cases k with
  | zero => exact absurd hk (by omega)
  | succ k => simp [List.replicate_succ, colRev]

/-- Unfolding of the printer loop at a token passing the line assertion. -/
theorem printLoop_cons_eq (cpos lnum : Nat) (t : PTok) (ts : List PTok)
    (h : ¬ (t.line - 1 < lnum)) :
    printLoop cpos lnum (t :: ts)
      = match printLoop ((if lnum < t.line - 1 then 0 else cpos)
            + ((t.col - 1) - (if lnum < t.line - 1 then 0 else cpos))
            + t.spelling.length) (t.line - 1) ts with
        | none => none
        | some rest =>
          some (List.replicate ((t.line - 1) - lnum) '\n'
            ++ List.replicate ((t.col - 1)
                - (if lnum < t.line - 1 then 0 else cpos)) ' '
            ++ t.spelling ++ rest) := by
  simp only [printLoop]
  rw [if_neg h]

/-- Invariant of the printer loop: starting from output position
(`lnum`, `cpos`), the loop succeeds on a well-formed ordered stream whose
first token lies at or after that position, the produced text ends with a
newline, and each token's spelling occurs after a prefix whose newline count
and final column are exactly the token's recorded 0-based position (the
column being relative to `cpos` while no newline has been emitted). -/
theorem printLoop_spec :
    ∀ (ts : List PTok) (cpos lnum : Nat),
      (∀ t ∈ ts, TokWF t) →
      List.Chain' TokOrder ts →
      (∀ t0, ts.head? = some t0 →
        lnum ≤ t0.line - 1 ∧ (t0.line - 1 = lnum → cpos ≤ t0.col - 1)) →
      ∃ out, printLoop cpos lnum ts = some out ∧
        (∃ p, out = p ++ ['\n']) ∧
        ∀ i, ∀ hi : i < ts.length,
          ∃ a b, out = a ++ (ts.get ⟨i, hi⟩).spelling ++ b ∧
            lnum + a.count '\n' = (ts.get ⟨i, hi⟩).line - 1 ∧
            (if a.count '\n' = 0 then cpos + colOf a else colOf a)
              = (ts.get ⟨i, hi⟩).col - 1 := by
  intro ts
  induction ts with
  | nil =>
    intro cpos lnum _ _ _
    exact ⟨['\n'], rfl, ⟨[], rfl⟩, fun i hi => absurd hi (by simp)⟩
  | cons t ts ih =>
    intro cpos lnum hwf hchain hhead
    obtain ⟨hline, hcol⟩ := hhead t rfl
    obtain ⟨ht1, ht2, ht3⟩ := hwf t (List.mem_cons_self t ts)
    have hnlt : ¬ (t.line - 1 < lnum) := by omega
    have hcpos0 : (if lnum < t.line - 1 then 0 else cpos) ≤ t.col - 1 := by
      by_cases h : lnum < t.line - 1
      · simp [h]
      · rw [if_neg h]
        exact hcol (by omega)
    have hsum : (if lnum < t.line - 1 then 0 else cpos)
        + ((t.col - 1) - (if lnum < t.line - 1 then 0 else cpos))
        = t.col - 1 := by omega
    have hwf' : ∀ u ∈ ts, TokWF u := fun u hu => hwf u (List.mem_cons_of_mem t hu)
    have hchain' : List.Chain' TokOrder ts := hchain.tail
    have hhead'' : ∀ u, ts.head? = some u →
        t.line - 1 ≤ u.line - 1
        ∧ (u.line - 1 = t.line - 1 →
          (if lnum < t.line - 1 then 0 else cpos)
            + ((t.col - 1) - (if lnum < t.line - 1 then 0 else cpos))
            + t.spelling.length ≤ u.col - 1) := by
      intro u hu
      cases ts with
      | nil => exact absurd hu (by simp)
      | cons u' ts' =>
        simp only [List.head?_cons, Option.some.injEq] at hu
        subst hu
        have hR : TokOrder t u' := (List.chain'_cons.mp hchain).1
        obtain ⟨hu1, hu2, _⟩ := hwf' u' (List.mem_cons_self u' ts')
        refine ⟨Nat.sub_le_sub_right hR.1 1, ?_⟩
        intro he
        have hEq : t.line = u'.line := by omega
        have := hR.2 hEq
        rw [hsum]
        omega
    obtain ⟨out', hloop', hend', hidx'⟩ :=
      ih ((if lnum < t.line - 1 then 0 else cpos)
        + ((t.col - 1) - (if lnum < t.line - 1 then 0 else cpos))
        + t.spelling.length) (t.line - 1) hwf' hchain' hhead''
    have heq := printLoop_cons_eq cpos lnum t ts hnlt
    rw [hloop'] at heq
    refine ⟨_, heq, ?_, ?_⟩
    · obtain ⟨p', hp'⟩ := hend'
      refine ⟨List.replicate ((t.line - 1) - lnum) '\n'
        ++ List.replicate ((t.col - 1)
            - (if lnum < t.line - 1 then 0 else cpos)) ' '
        ++ t.spelling ++ p', ?_⟩
      rw [hp']
      simp
    · intro i hi
      have hnosp : '\n' ∉ List.replicate ((t.col - 1)
          - (if lnum < t.line - 1 then 0 else cpos)) ' ' := by
        intro hm
        exact absurd (List.eq_of_mem_replicate hm) (by decide)
      have hcntNL : (List.replicate ((t.line - 1) - lnum) '\n').count '\n'
          = (t.line - 1) - lnum := by
        simp [List.count_replicate]
      have hcntSP : (List.replicate ((t.col - 1)
          - (if lnum < t.line - 1 then 0 else cpos)) ' ').count '\n' = 0 :=
        List.count_eq_zero.mpr hnosp
      have hcntSpell : t.spelling.count '\n' = 0 := List.count_eq_zero.mpr ht3
      cases i with
      | zero =>
        have hget0 : ((t :: ts).get ⟨0, hi⟩) = t := rfl
        have hcntPair : (List.replicate ((t.line - 1) - lnum) '\n'
            ++ List.replicate ((t.col - 1)
                - (if lnum < t.line - 1 then 0 else cpos)) ' ').count '\n'
            = (t.line - 1) - lnum := by
          rw [List.count_append, hcntNL, hcntSP]
          omega
        refine ⟨List.replicate ((t.line - 1) - lnum) '\n'
          ++ List.replicate ((t.col - 1)
              - (if lnum < t.line - 1 then 0 else cpos)) ' ', out',
          by simp, ?_, ?_⟩
        · rw [hget0, hcntPair]
          omega
        · rw [hget0]
          by_cases hlt : lnum < t.line - 1
          · have hne : ¬ ((List.replicate ((t.line - 1) - lnum) '\n'
                ++ List.replicate ((t.col - 1)
                    - (if lnum < t.line - 1 then 0 else cpos)) ' ').count '\n'
                = 0) := by
              rw [hcntPair]
              omega
            rw [if_neg hne]
            rw [colOf_append_no_nl _ _ hnosp,
              colOf_replicate_nl _ (by omega : 1 ≤ (t.line - 1) - lnum),
              List.length_replicate]
            rw [if_pos hlt]
            omega
          · have hz0 : (List.replicate ((t.line - 1) - lnum) '\n'
                ++ List.replicate ((t.col - 1)
                    - (if lnum < t.line - 1 then 0 else cpos)) ' ').count '\n'
                = 0 := by
              rw [hcntPair]
              omega
            rw [if_pos hz0]
            have h0 : (t.line - 1) - lnum = 0 := by omega
            rw [colOf_append_no_nl _ _ hnosp, List.length_replicate]
            rw [h0]
            rw [show colOf (List.replicate 0 '\n') = 0 from rfl]
            rw [if_neg hlt]
            rw [if_neg hlt] at hcpos0
            omega
      | succ j =>
        have hj : j < ts.length := by simpa using hi
        have hgetS : ((t :: ts).get ⟨j + 1, hi⟩) = ts.get ⟨j, hj⟩ := rfl
        obtain ⟨a', b', hout', hcnt', hcol'⟩ := hidx' j hj
        have hcntA : (List.replicate ((t.line - 1) - lnum) '\n'
            ++ List.replicate ((t.col - 1)
                - (if lnum < t.line - 1 then 0 else cpos)) ' '
            ++ t.spelling ++ a').count '\n'
            = ((t.line - 1) - lnum) + a'.count '\n' := by
          simp only [List.count_append, hcntNL, hcntSP, hcntSpell]
          omega
        refine ⟨List.replicate ((t.line - 1) - lnum) '\n'
          ++ List.replicate ((t.col - 1)
              - (if lnum < t.line - 1 then 0 else cpos)) ' '
          ++ t.spelling ++ a', b', ?_, ?_, ?_⟩
        · rw [hgetS, hout']
          simp
        · rw [hgetS, hcntA]
          omega
        · rw [hgetS]
          by_cases hz : a'.count '\n' = 0
          · have ha' : '\n' ∉ a' := List.count_eq_zero.mp hz
            rw [if_pos hz] at hcol'
            rw [colOf_no_nl _ ha'] at hcol'
            by_cases hlt : lnum < t.line - 1
            · have hne : ¬ ((List.replicate ((t.line - 1) - lnum) '\n'
                  ++ List.replicate ((t.col - 1)
                      - (if lnum < t.line - 1 then 0 else cpos)) ' '
                  ++ t.spelling ++ a').count '\n' = 0) := by
                rw [hcntA]
                omega
              rw [if_neg hne]
              rw [colOf_append_no_nl _ _ ha', colOf_append_no_nl _ _ ht3,
                colOf_append_no_nl _ _ hnosp, List.length_replicate,
                colOf_replicate_nl _ (by omega : 1 ≤ (t.line - 1) - lnum)]
              rw [if_pos hlt] at hcol' ⊢
              omega
            · have hzA : (List.replicate ((t.line - 1) - lnum) '\n'
                  ++ List.replicate ((t.col - 1)
                      - (if lnum < t.line - 1 then 0 else cpos)) ' '
                  ++ t.spelling ++ a').count '\n' = 0 := by
                rw [hcntA]
                omega
              rw [if_pos hzA]
              rw [colOf_append_no_nl _ _ ha', colOf_append_no_nl _ _ ht3,
                colOf_append_no_nl _ _ hnosp, List.length_replicate]
              have h0 : (t.line - 1) - lnum = 0 := by omega
              rw [h0]
              rw [show colOf (List.replicate 0 '\n') = 0 from rfl]
              rw [if_neg hlt] at hcol' ⊢
              omega
          · have hne : ¬ ((List.replicate ((t.line - 1) - lnum) '\n'
                ++ List.replicate ((t.col - 1)
                    - (if lnum < t.line - 1 then 0 else cpos)) ' '
                ++ t.spelling ++ a').count '\n' = 0) := by
              rw [hcntA]
              omega
            rw [if_neg hne]
            have hmem' : '\n' ∈ a' := by
              by_contra hmm
              exact hz (List.count_eq_zero.mpr hmm)
            rw [colOf_append_nl _ _ hmem']
            rw [if_neg hz] at hcol'
            exact hcol'

/-- C8 (amended): for every token sequence whose spellings contain no
newline character, whose recorded clang positions are 1-based (at least 1)
with nondecreasing lines, and whose tokens on a shared line start at or
after the end of the preceding token, the printer succeeds and emits each
token beginning exactly at its recorded line and column — the output prefix
before the token's spelling holds exactly `line - 1` newlines and ends at
column `col - 1` — and the output terminates with a newline. -/
theorem print_tokens_positions :
    ∀ ts : List PTok, (∀ t ∈ ts, TokWF t) → List.Chain' TokOrder ts →
      ∃ out, print_tokens ts = some out ∧ (∃ p, out = p ++ ['\n']) ∧
        ∀ i, ∀ hi : i < ts.length,
          beginsAt out (ts.get ⟨i, hi⟩).spelling (ts.get ⟨i, hi⟩).line
            (ts.get ⟨i, hi⟩).col := by
  intro ts hwf hchain
  obtain ⟨out, hloop, hend, hidx⟩ := printLoop_spec ts 0 0 hwf hchain
    (fun t0 _ => ⟨Nat.zero_le _, fun _ => Nat.zero_le _⟩)
  refine ⟨out, hloop, hend, ?_⟩
  intro i hi
  obtain ⟨a, b, hout, hcnt, hcol⟩ := hidx i hi
  refine ⟨a, b, hout, by omega, ?_⟩
  by_cases hz : a.count '\n' = 0
  · rw [if_pos hz] at hcol
    omega
  · rw [if_neg hz] at hcol
    exact hcol

/-- C8 witness: the amended theorem applied to the concrete stream
`int x` on line 1 (columns 1 and 5) and `;` on line 2 column 1. -/
theorem print_tokens_positions_witness :
    ∃ out,
      print_tokens [⟨['i', 'n', 't'], 1, 1⟩, ⟨['x'], 1, 5⟩, ⟨[';'], 2, 1⟩]
        = some out ∧ (∃ p, out = p ++ ['\n']) ∧
      ∀ i, ∀ hi : i < ([⟨['i', 'n', 't'], 1, 1⟩, ⟨['x'], 1, 5⟩,
          ⟨[';'], 2, 1⟩] : List PTok).length,
        beginsAt out
          (([⟨['i', 'n', 't'], 1, 1⟩, ⟨['x'], 1, 5⟩,
              ⟨[';'], 2, 1⟩] : List PTok).get ⟨i, hi⟩).spelling
          (([⟨['i', 'n', 't'], 1, 1⟩, ⟨['x'], 1, 5⟩,
              ⟨[';'], 2, 1⟩] : List PTok).get ⟨i, hi⟩).line
          (([⟨['i', 'n', 't'], 1, 1⟩, ⟨['x'], 1, 5⟩,
              ⟨[';'], 2, 1⟩] : List PTok).get ⟨i, hi⟩).col :=
  print_tokens_positions [⟨['i', 'n', 't'], 1, 1⟩, ⟨['x'], 1, 5⟩, ⟨[';'], 2, 1⟩]
    (by decide)
    (by simp [List.chain'_cons, List.chain'_singleton, TokOrder])

/-- The element right after a prefix of an append-with-cons. -/
theorem get_after_append : ∀ (a : List Char) (c : Char) (b : List Char),
    (a ++ c :: b).get? a.length = some c
  | [], _, _ => rfl
  | _ :: a, c, b => get_after_append a c b

/-- Taking a prefix's length from the append recovers the prefix. -/
theorem take_append_self : ∀ (a b : List Char), (a ++ b).take a.length = a
  | [], _ => rfl
  | x :: a, b => by
    simp only [List.cons_append, List.length_cons, List.take_succ_cons]
    rw [take_append_self a b]

/-- C8 counterexample: a token stream satisfying the claim's recorded-order
hypotheses (lines nondecreasing, no shared line) on which the printer does
not emit the second token at its recorded line: the first token's spelling
contains a newline, which the printer's column/line tracking does not see,
so the token recorded at line 2 is emitted after two newlines (line 3), and
there is no decomposition of the output placing `c` at line 2 column 1. -/
theorem printer_multiline_spelling_misplaced :
    (∀ t ∈ ([⟨['a', '\n', 'b'], 1, 1⟩, ⟨['c'], 2, 1⟩] : List PTok),
      1 ≤ t.line ∧ 1 ≤ t.col)
    ∧ List.Chain' TokOrder [⟨['a', '\n', 'b'], 1, 1⟩, ⟨['c'], 2, 1⟩]
    ∧ print_tokens [⟨['a', '\n', 'b'], 1, 1⟩, ⟨['c'], 2, 1⟩]
        = some ['a', '\n', 'b', '\n', 'c', '\n']
    ∧ ¬ beginsAt ['a', '\n', 'b', '\n', 'c', '\n'] ['c'] 2 1 := by
  refine ⟨by decide,
    by simp [List.chain'_cons, List.chain'_singleton, TokOrder], rfl, ?_⟩
  rintro ⟨a, b, heq, hcnt, hcol⟩
  rw [List.append_assoc, List.singleton_append] at heq
  have hget : (['a', '\n', 'b', '\n', 'c', '\n'] : List Char).get? a.length
      = some 'c' := by
    rw [heq]
    exact get_after_append a 'c' b
  have hlen6 : a.length ≤ 5 := by
    have := congrArg List.length heq
    simp only [List.length_append, List.length_cons, List.length_nil] at this
    omega
  have hcases : a.length = 0 ∨ a.length = 1 ∨ a.length = 2 ∨ a.length = 3
      ∨ a.length = 4 ∨ a.length = 5 := by omega
  rcases hcases with hk | hk | hk | hk | hk | hk
  · rw [hk] at hget
    exact absurd hget (by decide)
  · rw [hk] at hget
    exact absurd hget (by decide)
  · rw [hk] at hget
    exact absurd hget (by decide)
  · rw [hk] at hget
    exact absurd hget (by decide)
  · have ha : a = (['a', '\n', 'b', '\n', 'c', '\n'] : List Char).take 4 := by
      rw [heq, ← hk]
      exact (take_append_self a ('c' :: b)).symm
    rw [ha] at hcnt
    exact absurd hcnt (by decide)
  · rw [hk] at hget
    exact absurd hget (by decide)

end Convert
